import Mathlib

/-!
Shallow embedding of `src/blackjack.py` (a console Blackjack game) and
verification of its specification claims.

Conventions of the embedding:
* Python `int` values become `Int` (bets) or `Nat` (card values, deck counts);
  the player's `money` is a Python `float` that only ever holds sums of
  integers and integer multiples of 1.5, so it is embedded as `ℚ`.
* Python lists become `List`; `list.pop()` (from the end) becomes
  `getLast?` / `dropLast`; `list.append` becomes `++ [x]`.
* `random.shuffle` is nondeterministic; it is embedded as the relation
  `shuffleRel`, which holds exactly when the new card order is a
  permutation of the old one (the guarantee `random.shuffle` provides).
* Interactive input is embedded as a step function consuming one already
  tokenised input (`BetInput`): `"q"`, a string `int()` accepts, or a
  string on which `int()` raises.
-/

/-- `Card.__init__` (src/blackjack.py:9-26): rank ordinal 1-13 to
blackjack value and label (`type`). Ace is 11, J/Q/K are 10. -/
structure Card where
  value : Nat
  type : String
deriving DecidableEq, Repr

/-- The body of `Card.__init__`, constructing a card from its rank ordinal. -/
def Card.init (card : Nat) : Card :=
  if card = 1 then ⟨11, "A"⟩
  else if card ≤ 10 then ⟨card, toString card⟩
  else if card = 11 then ⟨10, "J"⟩
  else if card = 12 then ⟨10, "Q"⟩
  else ⟨10, "K"⟩

/-- `Shoe` (src/blackjack.py:29-44): a pile of cards. -/
structure Shoe where
  cards : List Card
deriving DecidableEq, Repr

/-- One pass of the inner loop of `Shoe.__init__`: `Card(i)` for `i` in
`range(1, 14)`. -/
def oneRankSet : List Card :=
  (List.range 13).map (fun i => Card.init (i + 1))

/-- `Shoe.__init__` (src/blackjack.py:32-38): `num_decks * 4` repetitions of
the 13-rank set. -/
def Shoe.init (num_decks : Nat) : Shoe :=
  ⟨(List.replicate (num_decks * 4) oneRankSet).flatten⟩

/-- `Shoe.get_card` (src/blackjack.py:43-44): `self.cards.pop()` removes and
returns the last card; popping an empty list raises, embedded as `none`. -/
def Shoe.get_card (s : Shoe) : Option (Card × Shoe) :=
  match s.cards.getLast? with
  | none => none
  | some c => some (c, ⟨s.cards.dropLast⟩)

/-- Repeated drawing from a shoe (`get_card` iterated `n` times). -/
def Shoe.drawN (s : Shoe) : Nat → Option Shoe
  | 0 => some s
  | n + 1 =>
    match s.get_card with
    | none => none
    | some (_, s') => s'.drawN n

/-- `Shoe.shuffle` (src/blackjack.py:40-41) calls `random.shuffle`, whose
contract is: the list afterwards is a permutation of the list before. -/
def shuffleRel (s s' : Shoe) : Prop :=
  s'.cards.Perm s.cards

/-- `Hand` (src/blackjack.py:46-86): cards, a cached ace count, the wager,
and the split-ace flag (comment on line 53: "True if this hand resulted
from a split ace pair"). -/
structure Hand where
  cards : List Card
  num_aces : Nat
  bet : Int
  split_ace : Bool
deriving DecidableEq, Repr

instance : Inhabited Hand := ⟨⟨[], 0, 0, false⟩⟩

/-- `Hand.__init__` (src/blackjack.py:49-53). -/
def Hand.init (bet : Int) : Hand :=
  ⟨[], 0, bet, false⟩

/-- `Hand.add` (src/blackjack.py:55-59): append the card; count aces by
label. -/
def Hand.add (h : Hand) (c : Card) : Hand :=
  { h with
    cards := h.cards ++ [c]
    num_aces := if c.type = "A" then h.num_aces + 1 else h.num_aces }

/-- The `while temp > 0 and real_value > 21` loop of `Hand.value`
(src/blackjack.py:72-74): subtract 10 per remaining ace while over 21. -/
def softenLoop : Nat → Nat → Nat
  | 0, v => v
  | temp + 1, v => if v > 21 then softenLoop temp (v - 10) else v

/-- `Hand.value` (src/blackjack.py:61-76): sum of card values (aces as 11),
then soften aces while the total exceeds 21. -/
def Hand.value (h : Hand) : Nat :=
  softenLoop h.num_aces ((h.cards.map Card.value).sum)

/-- `Hand.is_bust` (src/blackjack.py:78-79). -/
def Hand.is_bust (h : Hand) : Bool :=
  h.value > 21

/-- `Hand.can_split` (src/blackjack.py:81-83): exactly two cards with equal
labels. -/
def Hand.can_split (h : Hand) : Bool :=
  match h.cards with
  | [c0, c1] => c0.type = c1.type
  | _ => false

/-- Builds a hand by `add`ing each card in turn to a fresh `Hand(bet)`. -/
def mkHand (bet : Int) (cs : List Card) : Hand :=
  cs.foldl Hand.add (Hand.init bet)

/-- `Dealer` (src/blackjack.py:88-109): a single hand. -/
structure Dealer where
  hands : List Hand
deriving Repr

/-- `Dealer.__init__` (src/blackjack.py:92-94). -/
def Dealer.init : Dealer :=
  ⟨[Hand.init 0]⟩

/-- `Dealer.can_hit` (src/blackjack.py:96-97). -/
def Dealer.can_hit (d : Dealer) : Bool :=
  d.hands.headI.value < 17

/-- `Dealer.bust` (src/blackjack.py:102-106). -/
def Dealer.bust (d : Dealer) : Bool :=
  if d.hands.headI.value > 21 then true else false

/-- `Player` (src/blackjack.py:111-183): hands, money (starts at 1000.0),
and the per-round blackjack flag. -/
structure Player where
  hands : List Hand
  money : ℚ
  blackjack : Bool
deriving Repr

/-- `Player.__init__` (src/blackjack.py:115-119). -/
def Player.init : Player :=
  ⟨[], 1000, false⟩

/-- `Player.is_active` (src/blackjack.py:121-134): no blackjack this round
and at least one non-bust hand. -/
def Player.is_active (p : Player) : Bool :=
  if p.blackjack then false else p.hands.any (fun h => !h.is_bust)

/-- `Player.double` applied to the hand at index `i`
(src/blackjack.py:136-138): deduct the bet again, then double it. -/
def Player.double (p : Player) (i : Nat) : Player :=
  match p.hands.get? i with
  | none => p
  | some hand =>
    { p with
      money := p.money - (hand.bet : ℚ)
      hands := p.hands.set i { hand with bet := hand.bet * 2 } }

/-- `Player.split` applied to the hand at index `i`
(src/blackjack.py:141-152): deduct the bet, move the popped (last) card of
the hand into a new hand with the same bet, set `split_ace` on BOTH hands
unconditionally, and append the new hand.  Note the Python `pop` does not
touch the original hand's `num_aces` cache. -/
def Player.split (p : Player) (i : Nat) : Player :=
  match p.hands.get? i with
  | none => p
  | some hand =>
    match hand.cards.getLast? with
    | none => p
    | some c =>
      let newHand : Hand := { (Hand.init hand.bet).add c with split_ace := true }
      let hand' : Hand := { hand with cards := hand.cards.dropLast, split_ace := true }
      { p with
        money := p.money - (hand.bet : ℚ)
        hands := (p.hands.set i hand') ++ [newHand] }

/-- `Player.reset` (src/blackjack.py:154-156). -/
def Player.reset (p : Player) : Player :=
  { p with hands := [], blackjack := false }

/-- `Player.add_hand` (src/blackjack.py:158-160): deduct the bet, append the
hand. -/
def Player.add_hand (p : Player) (h : Hand) : Player :=
  { p with money := p.money - (h.bet : ℚ), hands := p.hands ++ [h] }

/-- `Player.win_hand` (src/blackjack.py:162-168): credit the bet back, then
1.5x the bet for a blackjack, else the bet again. -/
def Player.win_hand (p : Player) (h : Hand) : Player :=
  let p1 : Player := { p with money := p.money + (h.bet : ℚ) }
  if p.blackjack then
    { p1 with money := p1.money + (h.bet : ℚ) * (3 / 2) }
  else
    { p1 with money := p1.money + (h.bet : ℚ) }

/-- `Player.push_hand` (src/blackjack.py:170-171): credit only the bet. -/
def Player.push_hand (p : Player) (h : Hand) : Player :=
  { p with money := p.money + (h.bet : ℚ) }

/-- `player.blackjack = True` as performed by `Game.check_blackjack`
(src/blackjack.py:259). -/
def Player.set_blackjack (p : Player) : Player :=
  { p with blackjack := true }

/-- The outcome the settlement loop of `Game.do_results` assigns to one
hand. -/
inductive HandOutcome
  | win
  | push
  | loss
  | skipped
deriving DecidableEq, Repr

/-- The branch structure of the per-hand body of `Game.do_results`
(src/blackjack.py:324-336): skip bust hands; win if the dealer busted or
the hand beats the dealer total; push on equality; otherwise loss. -/
def hand_result (dealer_bust : Bool) (dealer_total : Nat) (h : Hand) : HandOutcome :=
  if h.is_bust then .skipped
  else if dealer_bust || decide (h.value > dealer_total) then .win
  else if h.value = dealer_total then .push
  else .loss

/-- The credit `Game.do_results` applies to the player for one hand:
`win_hand` on a win, `push_hand` on a push, nothing otherwise. -/
def settle_hand (dealer_bust : Bool) (dealer_total : Nat) (p : Player) (h : Hand) : Player :=
  match hand_result dealer_bust dealer_total h with
  | .win => p.win_hand h
  | .push => p.push_hand h
  | _ => p

/-- The per-player part of `Game.do_results` (src/blackjack.py:321-336):
inactive players are skipped, each hand of an active player is settled in
order. -/
def Player.settle (dealer_bust : Bool) (dealer_total : Nat) (p : Player) : Player :=
  if p.is_active then p.hands.foldl (settle_hand dealer_bust dealer_total) p else p

/-- `Game` (src/blackjack.py:185-192): a shoe, the players, the dealer. -/
structure Game where
  shoe : Shoe
  players : List Player
  dealer : Dealer

/-- `Game.__init__` (src/blackjack.py:189-192): the shoe is sized
`max(num_players, 6)` decks ("min number of decks is 6"). -/
def Game.init (num_players : Nat) : Game :=
  ⟨Shoe.init (max num_players 6), List.replicate num_players Player.init, Dealer.init⟩

/-- `Game.reset` (src/blackjack.py:285-295): reset the dealer and players
and build a fresh shoe with `num_decks = len(self.players)` — no 6-deck
minimum here.  The subsequent `self.shoe.shuffle()` permutes the cards and
is covered by `shuffleRel`; it changes no counts, so the pre-shuffle shoe
is recorded. -/
def Game.reset (g : Game) : Game :=
  { g with
    dealer := Dealer.init
    players := g.players.map Player.reset
    shoe := Shoe.init g.players.length }

/-- `Game.do_results` (src/blackjack.py:314-336): settle every player
against the dealer's bust status and total. -/
def Game.do_results (g : Game) : Game :=
  { g with
    players := g.players.map (Player.settle g.dealer.bust g.dealer.hands.headI.value) }

/-- One tokenised line of input at the bet prompt of `Game.take_bets`
(src/blackjack.py:429-432): the literal `"q"`, a string `int()` parses to
`b`, or a string `int()` raises on. -/
inductive BetInput
  | quit
  | num (b : Int)
  | invalid
deriving DecidableEq, Repr

/-- Outcome of one pass of the per-player `while True` loop of
`Game.take_bets` for a given input: the session ends, the bet is accepted
(with the player's new state), or the same player is re-prompted (with
their unchanged state). -/
inductive BetOutcome
  | quitGame
  | accepted (p : Player)
  | reprompt (p : Player)
deriving Repr

/-- One pass of the bet loop of `Game.take_bets` (src/blackjack.py:427-440)
for player `p` on one line of input: `"q"` quits; a parse failure
re-prompts; a parsed `bet` with `bet < 0 or bet > player.money` re-prompts;
otherwise `Hand(bet)` is created and `add_hand` deducts the bet. -/
def take_bet_step (p : Player) (inp : BetInput) : BetOutcome :=
  match inp with
  | .quit => .quitGame
  | .invalid => .reprompt p
  | .num b =>
    if b < 0 || p.money < (b : ℚ) then .reprompt p
    else .accepted (p.add_hand (Hand.init b))

/-- The money-mutating operations `Game` performs on a player, each with
the guard checked at its call site: accepting a bet requires
`0 ≤ b ≤ money` (src/blackjack.py:433), doubling requires
`money ≥ hand.bet` (line 399), splitting requires `can_split`, fewer than
4 hands and `money ≥ hand.bet` (lines 383-385); `win_hand` and `push_hand`
are called unconditionally during blackjack checks and settlement, on a
hand of the player. -/
inductive EngineStep : Player → Player → Prop
  | placeBet (p : Player) (b : Int) (hb : 0 ≤ b) (hm : (b : ℚ) ≤ p.money) :
      EngineStep p (p.add_hand (Hand.init b))
  | doDouble (p : Player) (i : Nat) (h : Hand) (hi : p.hands.get? i = some h)
      (hm : (h.bet : ℚ) ≤ p.money) :
      EngineStep p (p.double i)
  | doSplit (p : Player) (i : Nat) (h : Hand) (hi : p.hands.get? i = some h)
      (hs : h.can_split = true) (hlen : p.hands.length < 4)
      (hm : (h.bet : ℚ) ≤ p.money) :
      EngineStep p (p.split i)
  | winH (p : Player) (h : Hand) (hmem : h ∈ p.hands) :
      EngineStep p (p.win_hand h)
  | pushH (p : Player) (h : Hand) (hmem : h ∈ p.hands) :
      EngineStep p (p.push_hand h)
  | setBJ (p : Player) :
      EngineStep p p.set_blackjack
  | resetP (p : Player) :
      EngineStep p p.reset

/-- Player states the engine can reach from a fresh player through
money-mutating operations. -/
def ReachablePlayer (p : Player) : Prop :=
  Relation.ReflTransGen EngineStep Player.init p

/-! ## Helper lemmas -/

theorem foldl_add_cards (cs : List Card) (h : Hand) :
    (cs.foldl Hand.add h).cards = h.cards ++ cs := by
  induction cs generalizing h with
  | nil => simp
  | cons c cs ih => simp [ih, Hand.add]

theorem foldl_add_aces (cs : List Card) (h : Hand) :
    (cs.foldl Hand.add h).num_aces
      = h.num_aces + cs.countP (fun c => decide (c.type = "A")) := by
  induction cs generalizing h with
  | nil => simp
  | cons c cs ih =>
    rw [List.foldl_cons, ih, List.countP_cons]
    by_cases hA : c.type = "A" <;> simp [Hand.add, hA]
    omega

theorem foldl_add_bet (cs : List Card) (h : Hand) :
    (cs.foldl Hand.add h).bet = h.bet := by
  induction cs generalizing h with
  | nil => rfl
  | cons c cs ih => rw [List.foldl_cons, ih]; rfl

theorem softenLoop_le_or_all (t v : Nat) :
    softenLoop t v ≤ 21 ∨ softenLoop t v = v - 10 * t := by
  induction t generalizing v with
  | zero => right; simp [softenLoop]
  | succ t ih =>
    simp only [softenLoop]
    by_cases hv : v > 21
    · rw [if_pos hv]
      rcases ih (v - 10) with h1 | h2
      · exact Or.inl h1
      · right; rw [h2]; omega
    · rw [if_neg hv]; left; omega

/-! ## Claim theorems -/

/-- C1: `Hand.value` sums the cards' base values (ace = 11) and then
subtracts 10 per ace while the total exceeds 21 and unsoftened aces
remain, stopping at ≤ 21 or when all aces are softened; two aces and a 9
give 21, four aces give 14. -/
theorem hand_value_spec :
    (∀ (bet : Int) (cs : List Card),
        (mkHand bet cs).value
          = softenLoop (cs.countP (fun c => decide (c.type = "A")))
              ((cs.map Card.value).sum))
    ∧ (∀ (bet : Int) (cs : List Card),
        (mkHand bet cs).value ≤ 21
          ∨ (mkHand bet cs).value
              = (cs.map Card.value).sum
                  - 10 * cs.countP (fun c => decide (c.type = "A")))
    ∧ (Card.init 1).value = 11
    ∧ (mkHand 0 [Card.init 1, Card.init 1, Card.init 9]).value = 21
    ∧ (mkHand 0 [Card.init 1, Card.init 1, Card.init 1, Card.init 1]).value = 14 := by
  have hval : ∀ (bet : Int) (cs : List Card),
      (mkHand bet cs).value
        = softenLoop (cs.countP (fun c => decide (c.type = "A")))
            ((cs.map Card.value).sum) := by
    intro bet cs
    unfold Hand.value mkHand
    rw [foldl_add_cards, foldl_add_aces]
    simp [Hand.init]
  refine ⟨hval, ?_, by decide, by decide, by decide⟩
  intro bet cs
  rw [hval]
  exact softenLoop_le_or_all _ _

/-- C2: `win_hand` credits the stake plus winnings — `bet + bet` for a
standard win (net gain over the pre-bet balance: `bet`), and
`bet + 1.5 × bet` when the player's blackjack flag is set (net gain:
`1.5 × bet`; bet 100 from 1000 yields 1150). -/
theorem win_hand_spec :
    (∀ (p : Player) (h : Hand),
        (p.win_hand h).money
          = p.money + (h.bet : ℚ)
              + (if p.blackjack then (h.bet : ℚ) * (3 / 2) else (h.bet : ℚ)))
    ∧ (∀ (p : Player) (h : Hand),
        ((p.add_hand h).win_hand h).money
          = p.money + (if p.blackjack then (h.bet : ℚ) * (3 / 2) else (h.bet : ℚ)))
    ∧ (∀ (p : Player) (h : Hand),
        (((p.add_hand h).set_blackjack).win_hand h).money
          = p.money + (h.bet : ℚ) * (3 / 2))
    ∧ (((Player.init.add_hand (Hand.init 100)).set_blackjack).win_hand
          (Hand.init 100)).money = 1000 + 150 := by
  have base : ∀ (p : Player) (h : Hand),
      (p.win_hand h).money
        = p.money + (h.bet : ℚ)
            + (if p.blackjack then (h.bet : ℚ) * (3 / 2) else (h.bet : ℚ)) := by
    intro p h
    by_cases hb : p.blackjack <;> simp [Player.win_hand, hb]
  refine ⟨base, ?_, ?_, ?_⟩
  · intro p h
    rw [base]
    by_cases hb : p.blackjack <;> simp [Player.add_hand, hb]
  · intro p h
    simp [Player.win_hand, Player.add_hand, Player.set_blackjack]
  · norm_num [Player.win_hand, Player.add_hand, Player.set_blackjack,
      Player.init, Hand.init]

/-- C7: `can_split` holds exactly for two-card hands with equal labels; a
10 and a King have different labels ("10" vs "K"), so `can_split` is
false although the hand's value is 20. -/
theorem can_split_spec :
    (∀ h : Hand,
        h.can_split = true
          ↔ ∃ c0 c1, h.cards = [c0, c1] ∧ c0.type = c1.type)
    ∧ (mkHand 0 [Card.init 10, Card.init 13]).can_split = false
    ∧ (mkHand 0 [Card.init 10, Card.init 13]).value = 20 := by
  refine ⟨?_, by decide, by decide⟩
  intro h
  constructor
  · intro hc
    match hm : h.cards with
    | [c0, c1] =>
      refine ⟨c0, c1, rfl, ?_⟩
      unfold Hand.can_split at hc
      rw [hm] at hc
      simpa using hc
    | [] => unfold Hand.can_split at hc; rw [hm] at hc; simp at hc
    | [c] => unfold Hand.can_split at hc; rw [hm] at hc; simp at hc
    | c0 :: c1 :: c2 :: rest =>
      unfold Hand.can_split at hc; rw [hm] at hc; simp at hc
  · rintro ⟨c0, c1, hcs, hty⟩
    unfold Hand.can_split
    rw [hcs]
    simpa using hty

/-- C3 (evaluation of the code at the failing input): splitting a pair of
8s — not aces — nevertheless leaves `split_ace = true` on BOTH resulting
hands, because `Player.split` sets the flag unconditionally
(src/blackjack.py:146-148), contradicting the field's own documentation
("True if this hand resulted from a split ace pair", line 53); the flag
makes `Game.do_player_turn` (lines 356-358) treat both hands as terminal
after one card. -/
theorem split_non_ace_pair_sets_ace_flag :
    ((Player.mk [mkHand 10 [Card.init 8, Card.init 8]] 990 false).split 0).hands.map
        Hand.split_ace = [true, true] := by
  decide

/-- C4: in settlement, a non-bust hand of an active player wins exactly
when the dealer busted or the hand's value exceeds the dealer total,
pushes exactly when the values are equal (and a push credits only the
stake, for a net gain of zero over the pre-bet balance), and a loss
leaves the player's state untouched. -/
theorem do_results_spec (d : Dealer) (p : Player) (h : Hand)
    (_hact : p.is_active = true) (hnb : h.is_bust = false) :
    (hand_result d.bust d.hands.headI.value h = HandOutcome.win
        ↔ (d.bust = true ∨ h.value > d.hands.headI.value))
    ∧ (hand_result d.bust d.hands.headI.value h = HandOutcome.push
        ↔ h.value = d.hands.headI.value)
    ∧ (∀ q : Player,
        hand_result d.bust d.hands.headI.value h = HandOutcome.loss →
          settle_hand d.bust d.hands.headI.value q h = q)
    ∧ (∀ q : Player, (q.push_hand h).money = q.money + (h.bet : ℚ))
    ∧ (∀ q : Player, ((q.add_hand h).push_hand h).money = q.money) := by
  have hvle : h.value ≤ 21 := by
    simp only [Hand.is_bust, decide_eq_false_iff_not, not_lt] at hnb
    exact hnb
  have hdb : d.bust = true ↔ 21 < d.hands.headI.value := by
    by_cases hgt : 21 < d.hands.headI.value <;> simp [Dealer.bust, hgt]
  have hres : hand_result d.bust d.hands.headI.value h
      = if d.bust || decide (h.value > d.hands.headI.value) then HandOutcome.win
        else if h.value = d.hands.headI.value then HandOutcome.push
        else HandOutcome.loss := by
    simp [hand_result, hnb]
  refine ⟨?_, ?_, ?_, ?_, ?_⟩
  · rw [hres]
    by_cases hw : d.bust = true ∨ h.value > d.hands.headI.value
    · rcases hw with hw | hw <;> simp [hw]
    · push_neg at hw
      have hnlt : ¬ d.hands.headI.value < h.value := by omega
      by_cases heq : h.value = d.hands.headI.value <;>
        simp [hw.1, heq, hnlt]
  · rw [hres]
    by_cases heq : h.value = d.hands.headI.value
    · have hnbust : d.bust = false := by
        rw [Bool.eq_false_iff]
        intro hb
        have := hdb.mp hb
        omega
      simp [heq, hnbust]
    · by_cases hw : d.bust = true ∨ h.value > d.hands.headI.value
      · rcases hw with hw | hw <;> simp [hw, heq]
      · push_neg at hw
        have hnlt : ¬ d.hands.headI.value < h.value := by omega
        simp [hw.1, heq, hnlt]
  · intro q hloss
    simp [settle_hand, hloss]
  · intro q
    simp [Player.push_hand]
  · intro q
    simp [Player.push_hand, Player.add_hand]

/-- Witness for `do_results_spec`: dealer showing 9,9 (total 18) against
an active player's 9,9 hand (total 18, not bust) — the hand neither wins
nor loses but pushes, and the push restores the pre-bet balance. -/
theorem do_results_spec_witness :
    (Player.mk [mkHand 100 [Card.init 9, Card.init 9]] 900 false).is_active = true
    ∧ (mkHand 100 [Card.init 9, Card.init 9]).is_bust = false
    ∧ (hand_result (Dealer.mk [mkHand 0 [Card.init 9, Card.init 9]]).bust
          (Dealer.mk [mkHand 0 [Card.init 9, Card.init 9]]).hands.headI.value
          (mkHand 100 [Card.init 9, Card.init 9]) = HandOutcome.push
        ↔ (mkHand 100 [Card.init 9, Card.init 9]).value
            = (Dealer.mk [mkHand 0 [Card.init 9, Card.init 9]]).hands.headI.value)
    ∧ (∀ q : Player,
        ((q.add_hand (mkHand 100 [Card.init 9, Card.init 9])).push_hand
            (mkHand 100 [Card.init 9, Card.init 9])).money = q.money) := by
  have hs := do_results_spec (Dealer.mk [mkHand 0 [Card.init 9, Card.init 9]])
      (Player.mk [mkHand 100 [Card.init 9, Card.init 9]] 900 false)
      (mkHand 100 [Card.init 9, Card.init 9]) (by decide) (by decide)
  exact ⟨by decide, by decide, hs.2.1, hs.2.2.2.2⟩

/-- C5: splitting the hand at index `i` (a two-card hand, under the
caller's guards) deducts exactly the hand's bet from the player's money,
replaces the hand's cards by just its first card (bet and flag state of
the record otherwise as the code leaves them), appends a new hand holding
the removed second card with the same bet, and grows the hand list by
one. -/
theorem split_spec (p : Player) (i : Nat) (h : Hand) (c0 c1 : Card)
    (hi : p.hands.get? i = some h) (hcards : h.cards = [c0, c1])
    (_hsplit : h.can_split = true) (_hlen : p.hands.length < 4)
    (_hm : (h.bet : ℚ) ≤ p.money) :
    (p.split i).money = p.money - (h.bet : ℚ)
    ∧ (p.split i).hands
        = (p.hands.set i { h with cards := [c0], split_ace := true })
            ++ [{ cards := [c1],
                  num_aces := if c1.type = "A" then 1 else 0,
                  bet := h.bet, split_ace := true }]
    ∧ (p.split i).hands.length = p.hands.length + 1 := by
  have hg : h.cards.getLast? = some c1 := by rw [hcards]; rfl
  have hd : h.cards.dropLast = [c0] := by rw [hcards]; rfl
  have hsplit_eq : p.split i
      = { p with
          money := p.money - (h.bet : ℚ)
          hands := (p.hands.set i { h with cards := [c0], split_ace := true })
              ++ [{ cards := [c1],
                    num_aces := if c1.type = "A" then 1 else 0,
                    bet := h.bet, split_ace := true }] } := by
    rw [Player.split, hi]
    simp only [hg, hd, Hand.add, Hand.init]
    by_cases hA : c1.type = "A" <;> simp [hA]
  refine ⟨by rw [hsplit_eq], by rw [hsplit_eq], ?_⟩
  rw [hsplit_eq]
  simp

/-- Witness for `split_spec`: a player holding a pair of 8s with bet 10
and 990 in money splits into two one-card hands. -/
theorem split_spec_witness :
    (Player.mk [mkHand 10 [Card.init 8, Card.init 8]] 990 false).hands.get? 0
        = some (mkHand 10 [Card.init 8, Card.init 8])
    ∧ (mkHand 10 [Card.init 8, Card.init 8]).can_split = true
    ∧ ((10 : ℚ) ≤ 990)
    ∧ ((Player.mk [mkHand 10 [Card.init 8, Card.init 8]] 990 false).split 0).money = 980
    ∧ ((Player.mk [mkHand 10 [Card.init 8, Card.init 8]] 990 false).split 0).hands.length
        = 2 := by
  have hs := split_spec (Player.mk [mkHand 10 [Card.init 8, Card.init 8]] 990 false) 0
      (mkHand 10 [Card.init 8, Card.init 8]) (Card.init 8) (Card.init 8)
      (by decide) (by decide) (by decide) (by decide) (by norm_num [mkHand, Hand.add, Hand.init])
  refine ⟨by decide, by decide, by norm_num, ?_, hs.2.2⟩
  rw [hs.1]
  norm_num [mkHand, Hand.add, Hand.init]

theorem oneRankSet_length : oneRankSet.length = 13 := by
  simp [oneRankSet]

theorem shoe_init_length (n : Nat) : (Shoe.init n).cards.length = 52 * n := by
  simp [Shoe.init, List.map_replicate, oneRankSet_length]
  ring

/-- C6 counterexample: in a 1-player game, the shoe built by `Game.reset`
has 52 cards (1 deck), not `52 * max(1, 6) = 312`: the reset path sizes
the shoe as `len(self.players)` with no 6-deck minimum. -/
theorem reset_shoe_not_min_six_decks :
    ((Game.init 1).reset).shoe.cards.length ≠ 52 * max 1 6 := by
  have h1 : ((Game.init 1).reset).shoe.cards.length = 52 * 1 := by
    simpa [Game.init, Game.reset] using shoe_init_length 1
  rw [h1]
  decide

/-- C6 amended: the shoe built by `Game.__init__` has
`num_decks = max(num_players, 6)` (so at least 6 decks of 52 cards), but
the shoe built by `Game.reset` at each round reset has
`num_decks = number of players`, with no 6-deck minimum. -/
theorem shoe_sizing_spec (n : Nat) :
    (Game.init n).shoe.cards.length = 52 * max n 6
    ∧ 52 * 6 ≤ (Game.init n).shoe.cards.length
    ∧ ((Game.init n).reset).shoe.cards.length = 52 * n := by
  have h1 : (Game.init n).shoe.cards.length = 52 * max n 6 := shoe_init_length _
  have h2 : ((Game.init n).reset).shoe.cards.length = 52 * n := by
    simpa [Game.init, Game.reset] using shoe_init_length (List.replicate n Player.init).length
  refine ⟨h1, ?_, h2⟩
  rw [h1]
  have h6 : 6 ≤ max n 6 := le_max_right n 6
  omega

theorem count_flatten_replicate (k : Nat) (l : List Card) (c : Card) :
    ((List.replicate k l).flatten).count c = k * l.count c := by
  induction k with
  | zero => simp
  | succ k ih =>
    rw [List.replicate_succ, List.flatten_cons, List.count_append, ih]
    ring

theorem oneRankSet_count (r : Nat) (h1 : 1 ≤ r) (h13 : r ≤ 13) :
    oneRankSet.count (Card.init r) = 1 := by
  interval_cases r <;> decide

theorem drawN_self_length (l : List Card) :
    Shoe.drawN ⟨l⟩ l.length = some ⟨[]⟩ := by
  induction l using List.reverseRecOn with
  | nil => rfl
  | append_singleton l c ih =>
    rw [List.length_append]
    show Shoe.drawN ⟨l ++ [c]⟩ (l.length + 1) = some ⟨[]⟩
    simp only [Shoe.drawN, Shoe.get_card, List.getLast?_concat, List.dropLast_concat]
    exact ih

/-- C8: a shoe of `n ≥ 1` decks holds exactly `52 n` cards — `4 n` of each
of the 13 ranks; drawing `52 n` times empties it; each successful draw
removes exactly one card; and shuffling (any permutation, which is what
`random.shuffle` produces) preserves the card count and the multiset of
cards. -/
theorem shoe_composition_spec (n : Nat) (_hn : 1 ≤ n) :
    (Shoe.init n).cards.length = 52 * n
    ∧ (∀ r : Nat, 1 ≤ r → r ≤ 13 →
        (Shoe.init n).cards.count (Card.init r) = 4 * n)
    ∧ Shoe.drawN (Shoe.init n) (52 * n) = some ⟨[]⟩
    ∧ (∀ s : Shoe, s.cards ≠ [] →
        ∃ c s', s.get_card = some (c, s') ∧ s'.cards.length + 1 = s.cards.length)
    ∧ (∀ s s' : Shoe, shuffleRel s s' →
        s'.cards.length = s.cards.length
          ∧ (s'.cards : Multiset Card) = (s.cards : Multiset Card)) := by
  refine ⟨shoe_init_length n, ?_, ?_, ?_, ?_⟩
  · intro r h1 h13
    show ((List.replicate (n * 4) oneRankSet).flatten).count (Card.init r) = 4 * n
    rw [count_flatten_replicate, oneRankSet_count r h1 h13]
    ring
  · have h := drawN_self_length (Shoe.init n).cards
    rwa [shoe_init_length n] at h
  · intro s hs
    have hsome : s.cards.getLast?.isSome := by
      rw [List.getLast?_isSome]
      exact hs
    obtain ⟨c, hc⟩ := Option.isSome_iff_exists.mp hsome
    refine ⟨c, ⟨s.cards.dropLast⟩, ?_, ?_⟩
    · simp [Shoe.get_card, hc]
    · have hne : s.cards.length ≠ 0 := by
        simpa [List.length_eq_zero] using hs
      simp [List.length_dropLast]
      omega
  · intro s s' hp
    exact ⟨hp.length_eq, Multiset.coe_eq_coe.mpr hp⟩

/-- Witness for `shoe_composition_spec` at `n = 1`: a single-deck shoe. -/
theorem shoe_composition_spec_witness :
    1 ≤ 1
    ∧ ((Shoe.init 1).cards.length = 52 * 1
        ∧ (∀ r : Nat, 1 ≤ r → r ≤ 13 →
            (Shoe.init 1).cards.count (Card.init r) = 4 * 1)
        ∧ Shoe.drawN (Shoe.init 1) (52 * 1) = some ⟨[]⟩
        ∧ (∀ s : Shoe, s.cards ≠ [] →
            ∃ c s', s.get_card = some (c, s') ∧ s'.cards.length + 1 = s.cards.length)
        ∧ (∀ s s' : Shoe, shuffleRel s s' →
            s'.cards.length = s.cards.length
              ∧ (s'.cards : Multiset Card) = (s.cards : Multiset Card))) :=
  ⟨le_refl 1, shoe_composition_spec 1 (le_refl 1)⟩

/-- C9: at the bet prompt, a parsed integer `b` is accepted exactly when
`0 ≤ b` and `b` does not exceed the player's money; acceptance appends
`Hand(b)` and deducts exactly `b`; a rejected number or an unparseable
line leaves the player unchanged and re-prompts; `"q"` quits the
session. -/
theorem take_bets_spec (p : Player) (b : Int) :
    (take_bet_step p (BetInput.num b)
        = BetOutcome.accepted (p.add_hand (Hand.init b))
      ↔ (0 ≤ b ∧ (b : ℚ) ≤ p.money))
    ∧ (p.add_hand (Hand.init b)).money = p.money - (b : ℚ)
    ∧ (p.add_hand (Hand.init b)).hands = p.hands ++ [Hand.init b]
    ∧ (¬(0 ≤ b ∧ (b : ℚ) ≤ p.money) →
        take_bet_step p (BetInput.num b) = BetOutcome.reprompt p)
    ∧ take_bet_step p BetInput.invalid = BetOutcome.reprompt p
    ∧ take_bet_step p BetInput.quit = BetOutcome.quitGame := by
  have hneg : ∀ hc : ¬(0 ≤ b ∧ (b : ℚ) ≤ p.money),
      take_bet_step p (BetInput.num b) = BetOutcome.reprompt p := by
    intro hc
    have : b < 0 ∨ p.money < (b : ℚ) := by
      by_contra hcon
      push_neg at hcon
      exact hc ⟨by omega, hcon.2⟩
    rcases this with hb | hm
    · simp [take_bet_step, hb]
    · simp [take_bet_step, hm]
  refine ⟨?_, by simp [Player.add_hand, Hand.init], by simp [Player.add_hand], hneg,
    rfl, rfl⟩
  constructor
  · intro hacc
    by_contra hc
    rw [hneg hc] at hacc
    exact BetOutcome.noConfusion hacc
  · rintro ⟨hb, hm⟩
    have hb' : ¬ b < 0 := by omega
    have hm' : ¬ p.money < (b : ℚ) := not_lt.mpr hm
    simp [take_bet_step, hb', hm']

/-- Witness for `take_bets_spec`: a fresh player betting 100. -/
theorem take_bets_spec_witness :
    (take_bet_step Player.init (BetInput.num 100)
        = BetOutcome.accepted (Player.init.add_hand (Hand.init 100))
      ↔ (0 ≤ (100 : Int) ∧ ((100 : Int) : ℚ) ≤ Player.init.money))
    ∧ (Player.init.add_hand (Hand.init 100)).money
        = Player.init.money - ((100 : Int) : ℚ)
    ∧ (Player.init.add_hand (Hand.init 100)).hands
        = Player.init.hands ++ [Hand.init 100]
    ∧ (¬(0 ≤ (100 : Int) ∧ ((100 : Int) : ℚ) ≤ Player.init.money) →
        take_bet_step Player.init (BetInput.num 100)
          = BetOutcome.reprompt Player.init)
    ∧ take_bet_step Player.init BetInput.invalid = BetOutcome.reprompt Player.init
    ∧ take_bet_step Player.init BetInput.quit = BetOutcome.quitGame :=
  take_bets_spec Player.init 100

/-- The invariant behind the money bound: the balance is nonnegative and
every held hand's bet is nonnegative. -/
def MoneyInv (p : Player) : Prop :=
  0 ≤ p.money ∧ ∀ h ∈ p.hands, 0 ≤ h.bet
theorem engineStep_preserves (p p' : Player) (hstep : EngineStep p p')
    (hinv : MoneyInv p) : MoneyInv p' := by
  obtain ⟨hm, hb⟩ := hinv
  cases hstep with
  | placeBet b hb0 hbm =>
    constructor
    · have hble : (b : ℚ) ≤ p.money := hbm
      simp only [Player.add_hand, Hand.init]
      linarith
    · intro h hh
      simp only [Player.add_hand] at hh
      rcases List.mem_append.mp hh with hh | hh
      · exact hb h hh
      · rcases List.mem_singleton.mp hh with rfl
        simpa [Hand.init] using hb0
  | doDouble i hand hi hm2 =>
    have hmem : hand ∈ p.hands := List.get?_mem hi
    have hbet : 0 ≤ hand.bet := hb hand hmem
    constructor
    · rw [Player.double, hi]
      simp only []
      linarith
    · intro h hh
      rw [Player.double, hi] at hh
      simp only [] at hh
      rcases List.mem_or_eq_of_mem_set hh with hh | rfl
      · exact hb h hh
      · simp only []
        omega
  | doSplit i hand hi hs hlen hm2 =>
    have hmem : hand ∈ p.hands := List.get?_mem hi
    have hbet : 0 ≤ hand.bet := hb hand hmem
    cases hlast : hand.cards.getLast? with
    | none =>
      constructor
      · rw [Player.split, hi]
        simp only [hlast]
        exact hm
      · intro h hh
        rw [Player.split, hi] at hh
        simp only [hlast] at hh
        exact hb h hh
    | some c =>
      constructor
      · rw [Player.split, hi]
        simp only [hlast]
        linarith
      · intro h hh
        rw [Player.split, hi] at hh
        simp only [hlast] at hh
        rcases List.mem_append.mp hh with hh | hh
        · rcases List.mem_or_eq_of_mem_set hh with hh | rfl
          · exact hb h hh
          · exact hbet
        · rcases List.mem_singleton.mp hh with rfl
          simpa [Hand.add, Hand.init] using hbet
  | winH h hmem =>
    have hbet : (0 : ℚ) ≤ (h.bet : ℚ) := by exact_mod_cast hb h hmem
    have h32 : (0 : ℚ) ≤ (h.bet : ℚ) * (3 / 2) :=
      mul_nonneg hbet (by norm_num)
    constructor
    · by_cases hbj : p.blackjack <;> simp [Player.win_hand, hbj] <;> linarith
    · intro h' hh'
      have hhands : (p.win_hand h).hands = p.hands := by
        by_cases hbj : p.blackjack <;> simp [Player.win_hand, hbj]
      rw [hhands] at hh'
      exact hb h' hh'
  | pushH h hmem =>
    have hbet : (0 : ℚ) ≤ (h.bet : ℚ) := by exact_mod_cast hb h hmem
    constructor
    · simp only [Player.push_hand]
      linarith
    · intro h' hh'
      exact hb h' hh'
  | setBJ =>
    exact ⟨hm, hb⟩
  | resetP =>
    exact ⟨hm, by simp [Player.reset]⟩

/-- C10: starting from a fresh player (money 1000), every sequence of the
money-mutating operations the engine performs — guarded bets, doubles and
splits, and the credits of `win_hand` / `push_hand` — keeps the player's
money nonnegative. -/
theorem money_never_negative (p : Player) (hp : ReachablePlayer p) :
    Player.init.money = 1000 ∧ 0 ≤ p.money := by
  refine ⟨rfl, ?_⟩
  have hinv : MoneyInv p := by
    induction hp with
    | refl => exact ⟨by norm_num [Player.init], by simp [Player.init]⟩
    | tail _ hstep ih => exact engineStep_preserves _ _ hstep ih
  exact hinv.1

/-- Witness for `money_never_negative`: the state after one accepted bet
of 100 is reachable and still has nonnegative money. -/
theorem money_never_negative_witness :
    ReachablePlayer (Player.init.add_hand (Hand.init 100))
    ∧ Player.init.money = 1000
    ∧ 0 ≤ (Player.init.add_hand (Hand.init 100)).money := by
  have hr : ReachablePlayer (Player.init.add_hand (Hand.init 100)) :=
    Relation.ReflTransGen.single
      (EngineStep.placeBet Player.init 100 (by norm_num) (by norm_num [Player.init]))
  have h := money_never_negative _ hr
  exact ⟨hr, h.1, h.2⟩
